import Mathlib

/-!
Verification of the graphql-client code generator (Rust) against its
natural-language specification, through a shallow embedding in Lean.

Each definition mirrors one function of the repository; the file models the
machine-level parts (token streams, case conversion by the heck crate,
I/O) by their semantic content: a generated item is represented by the data
it carries, not by its concrete token text. Definitions whose source file is
not part of the staged repository snapshot are marked
"Modelled from the spec:" and follow the specification's words.
-/

/-! ## Type qualifier decoration (codegen.rs, decorate_type) -/

/-- A GraphQL type qualifier (field_type.rs): a type reference carries an
ordered chain of these, outermost-first as declared in source syntax. -/
inductive GraphqlTypeQualifier
  | required
  | list
deriving DecidableEq

/-- The shape of a generated Rust type as built by decorate_type: the bare
identifier, an Option of a shape, or a Vec of a shape. -/
inductive RustType
  | named (ident : String)
  | option (inner : RustType)
  | vec (inner : RustType)
deriving DecidableEq

/-- The loop of decorate_type (codegen.rs lines 442-478). The state is the
non_null flag and the type built so far; the list given here is the declared
qualifier chain already reversed, so it is processed innermost-first exactly
as the source's `qualifiers.iter().rev()` loop does. The source's panic on a
double Required annotation is the `none` case; the final wrap in Option when
still nullable is the `[]` case. -/
def decorateTypeAux : Bool → RustType → List GraphqlTypeQualifier → Option RustType
  | false, shape, [] => some (RustType.option shape)
  | true, shape, [] => some shape
  | true, shape, GraphqlTypeQualifier.list :: rest =>
      decorateTypeAux false (RustType.vec shape) rest
  | false, shape, GraphqlTypeQualifier.list :: rest =>
      decorateTypeAux false (RustType.vec (RustType.option shape)) rest
  | true, _, GraphqlTypeQualifier.required :: _ => none
  | false, shape, GraphqlTypeQualifier.required :: rest =>
      decorateTypeAux true shape rest

/-- decorate_type (codegen.rs lines 442-478): starts from the bare identifier
with non_null = false and processes the declared qualifier chain in reverse. -/
def decorate_type (ident : String) (qualifiers : List GraphqlTypeQualifier) :
    Option RustType :=
  decorateTypeAux false (RustType.named ident) qualifiers.reverse

/-! ## Open-world enum generation (codegen.rs, generate_enum_definitions) -/

/-- A runtime value of a generated enum (codegen.rs lines 150-223): one known
variant per schema-declared enum value (identified here by that value's wire
string, which is what the generated variant stands for) plus the single
synthetic catch-all variant Other carrying the raw unmatched string. -/
inductive EnumValue
  | known (value : String)
  | other (raw : String)
deriving DecidableEq

/-- The generated Deserialize impl (codegen.rs lines 212-221): the incoming
string is matched against the variant strings in declaration order; the
wildcard arm wraps anything else in the catch-all variant. -/
def deserializeEnum (variants : List String) (s : String) : EnumValue :=
  match variants with
  | [] => EnumValue.other s
  | v :: rest => if v = s then EnumValue.known v else deserializeEnum rest s

/-- The generated Serialize impl (codegen.rs lines 203-210): each known
variant serializes to its exact schema string, the catch-all to the string it
carries. -/
def serializeEnum : EnumValue → String
  | EnumValue.known v => v
  | EnumValue.other raw => raw

/-! ## Union and interface variant resolution (unions.rs) -/

/-- An item of a selection set on a union or interface field, as the union
resolver consumes it: the discriminator meta-field, or an inline fragment
targeting one concrete member type. -/
inductive UnionSelectionItem
  | typenameField
  | inlineFragment (typeCondition : String)
deriving DecidableEq

/-- The part of the schema registry that union_variants consults (unions.rs
lines 59-74): the names registered as objects, interfaces and unions. -/
structure UnionContextSchema where
  objects : List String
  interfaces : List String
  unions : List String
deriving DecidableEq

/-- The UnionError enum of unions.rs (lines 20-27). -/
inductive UnionError
  | unknownType (ty : String)
  | missingTypename (unionName : String)
deriving DecidableEq

/-- One variant of the generated union enum: either a variant wrapping the
struct generated for a selected member, or the bare placeholder emitted for a
declared member that was not selected. -/
inductive UnionVariant
  | wrapped (memberName : String)
  | placeholder (memberName : String)
deriving DecidableEq

/-- Modelled from the spec: Selection::selected_variants_on_union —
selection.rs is not among the staged repository files. Spec 4.4: group all
inline fragments and fragment spreads of the selection by the concrete
member-type name they target, merging duplicate targets. Modelled as the
duplicate-free list of targeted member names; the source iterates a BTreeMap,
whose sorted key order at most permutes this list. -/
def selectedVariantsOnUnion (selection : List UnionSelectionItem) : List String :=
  (selection.filterMap fun item =>
    match item with
    | UnionSelectionItem.typenameField => none
    | UnionSelectionItem.inlineFragment tc => some tc).dedup

/-- The member lookup of union_variants (unions.rs lines 59-79): a targeted
member resolves when it names an object, an interface or a union of the
schema; the UnknownType error fires exactly when all three lookups miss. -/
def knownCompositeType (schema : UnionContextSchema) (name : String) : Bool :=
  decide (name ∈ schema.objects ∨ name ∈ schema.interfaces ∨ name ∈ schema.unions)

/-- The loop of union_variants (unions.rs lines 51-86) over the grouped member
names: for each, emit one variant wrapping the member's struct and one child
definition, or fail with UnknownType when the name resolves to no composite
type of the schema. -/
def unionVariantsLoop (schema : UnionContextSchema) :
    List String → Except UnionError (List UnionVariant × List String)
  | [] => Except.ok ([], [])
  | m :: rest =>
      if knownCompositeType schema m then
        match unionVariantsLoop schema rest with
        | Except.ok (vs, defs) => Except.ok (UnionVariant.wrapped m :: vs, m :: defs)
        | Except.error e => Except.error e
      else Except.error (UnionError.unknownType m)

/-- union_variants (unions.rs lines 39-89): returns the wrapped variants, the
children struct definitions (represented by the member names they are
generated for) and the used variant names. The source seeds used_variants
with all grouped keys and pushes every key again inside the loop, hence the
duplicated list. -/
def union_variants (schema : UnionContextSchema) (selection : List UnionSelectionItem) :
    Except UnionError (List UnionVariant × List String × List String) :=
  let keys := selectedVariantsOnUnion selection
  match unionVariantsLoop schema keys with
  | Except.ok (vs, defs) => Except.ok (vs, defs, keys ++ keys)
  | Except.error e => Except.error e

/-- Modelled from the spec: Selection::extract_typename — selection.rs is not
among the staged repository files. Spec 4.4 and glossary: the discriminator is
the __typename meta-field, and extract_typename finds it when the selection
contains it. -/
def extractTypename (selection : List UnionSelectionItem) : Bool :=
  decide (UnionSelectionItem.typenameField ∈ selection)

/-- GqlUnion::response_for_selection (unions.rs lines 94-137): fail with
MissingTypename when the discriminator is absent from the selection; otherwise
take the variants from union_variants and append one bare placeholder variant
for every declared member whose name is not among the used variant names.
declaredVariants stands for the union's BTreeSet of members, i.e. a sorted
duplicate-free name list. -/
def response_for_selection (schema : UnionContextSchema) (declaredVariants : List String)
    (selection : List UnionSelectionItem) (pfx : String) :
    Except UnionError (List UnionVariant) :=
  if extractTypename selection = false then
    Except.error (UnionError.missingTypename pfx)
  else
    match union_variants schema selection with
    | Except.error e => Except.error e
    | Except.ok (variants, _childrenDefs, usedVariants) =>
        Except.ok (variants ++
          (declaredVariants.filter (fun v => decide (v ∉ usedVariants))).map
            UnionVariant.placeholder)

/-! ## Transitive reference closure

The used-types collector (spec 4.6) and the fragment cycle detector (spec 3,
4.3) both saturate a finite successor relation on names; the next definitions
give that saturation and the reachability relation it computes. -/

/-- One saturation step: add every direct successor of the set's members. -/
def stepClose (succ : String → Finset String) (s : Finset String) : Finset String :=
  s ∪ s.biUnion succ

/-- Iterated saturation from a root set. -/
def iterClose (succ : String → Finset String) (roots : Finset String) : Nat → Finset String
  | 0 => roots
  | n + 1 => stepClose succ (iterClose succ roots n)

/-- Reachability from the roots along the successor relation: the
specification's notion of a transitively referenced name. -/
inductive Reaches (succ : String → Finset String) (roots : Finset String) : String → Prop
  | root (x : String) : x ∈ roots → Reaches succ roots x
  | step (x y : String) : Reaches succ roots x → y ∈ succ x → Reaches succ roots y

/-- The saturation run to a fixpoint: as many steps as the bounding universe
has elements, which the pigeonhole argument below shows is enough. -/
def closureFrom (succ : String → Finset String) (roots bound : Finset String) :
    Finset String :=
  iterClose succ roots bound.card

/-! ## Used-types collection and definition pruning (codegen.rs with resolution.rs) -/

/-- An input object definition of the schema: its name and the base type
names of its declared fields. -/
structure InputObjectDef where
  name : String
  fieldTypeNames : List String
deriving DecidableEq

/-- A fragment of the query document as the reference collector sees it: its
name, the schema type names its selection references, and the names of the
fragments it spreads. -/
structure FragmentDef where
  name : String
  typeRefs : List String
  spreadRefs : List String
deriving DecidableEq

/-- The definition registry consulted when pruning output definitions. -/
structure SchemaModel where
  scalars : List String
  enums : List String
  inputs : List InputObjectDef
  fragments : List FragmentDef
deriving DecidableEq

/-- Modelled from the spec: the direct references of one named definition —
resolution.rs, which computes UsedTypes, is not among the staged repository
files. Spec 4.6: an input object refers to its nested field base types; a
fragment refers to the types its selection uses and to the fragments it
spreads; scalars and enums refer to nothing. -/
def schemaRefSucc (schema : SchemaModel) (x : String) : Finset String :=
  ((schema.inputs.filter (fun d => decide (d.name = x))).flatMap
      (fun d => d.fieldTypeNames)).toFinset ∪
  ((schema.fragments.filter (fun f => decide (f.name = x))).flatMap
      (fun f => f.typeRefs ++ f.spreadRefs)).toFinset

/-- Every name the direct-reference relation can ever mention: the roots, the
definition names, and every name a definition refers to. -/
def schemaNameUniverse (schema : SchemaModel) (roots : Finset String) : Finset String :=
  roots ∪ (schema.inputs.flatMap (fun d => d.name :: d.fieldTypeNames)).toFinset ∪
    (schema.fragments.flatMap (fun f => f.name :: (f.typeRefs ++ f.spreadRefs))).toFinset

/-- Modelled from the spec: UsedTypes / all_used_types (resolution.rs is not
among the staged repository files). Spec 4.6: starting from the operation's
variable types and resolved selection — the roots — transitively gather every
referenced scalar, enum, input object and fragment. -/
def allUsedTypes (schema : SchemaModel) (roots : Finset String) : Finset String :=
  closureFrom (schemaRefSucc schema) roots (schemaNameUniverse schema roots)

/-- A definition of the generated output, reduced to what the emitted tokens
carry. generate_input_object_definitions (codegen.rs lines 480-489) emits the
literal token `heh` for every used input object: a placeholder naming
nothing, which is why that constructor carries no field. -/
inductive EmittedDefinition
  | scalarDef (name : String)
  | enumDef (name : String)
  | inputPlaceholder
  | fragmentDef (name : String)
deriving DecidableEq

/-- generate_scalar_definitions (codegen.rs lines 133-141): one type alias
per scalar among the used types. -/
def generate_scalar_definitions (schema : SchemaModel) (used : Finset String) :
    List EmittedDefinition :=
  (schema.scalars.filter (fun s => decide (s ∈ used))).map EmittedDefinition.scalarDef

/-- generate_enum_definitions (codegen.rs lines 150-223) at the level of the
definition list: one enum definition per enum among the used types. -/
def generate_enum_definition_names (schema : SchemaModel) (used : Finset String) :
    List EmittedDefinition :=
  (schema.enums.filter (fun s => decide (s ∈ used))).map EmittedDefinition.enumDef

/-- generate_input_object_definitions (codegen.rs lines 480-489): one emitted
item per input object among the used types, each the bare placeholder token
`heh` of the source. -/
def generate_input_object_definitions (schema : SchemaModel) (used : Finset String) :
    List EmittedDefinition :=
  (schema.inputs.filter (fun d => decide (d.name ∈ used))).map
    (fun _ => EmittedDefinition.inputPlaceholder)

/-- generate_fragment_definitions (codegen.rs lines 491-531): one definition
per fragment among the used types' fragment ids. -/
def generate_fragment_definition_names (schema : SchemaModel) (used : Finset String) :
    List EmittedDefinition :=
  (schema.fragments.filter (fun f => decide (f.name ∈ used))).map
    (fun f => EmittedDefinition.fragmentDef f.name)

/-! ## Recursive fragments and field indirection (shared.rs) -/

/-- Modelled from the spec: the fragment spread graph — the Fragment type and
its recursion detection (fragments.rs, query.rs) are not among the staged
repository files. Each fragment name maps to the fragments its own selection
spreads directly. -/
def fragmentSpreadSucc (frags : List FragmentDef) (x : String) : Finset String :=
  ((frags.filter (fun f => decide (f.name = x))).flatMap (fun f => f.spreadRefs)).toFinset

/-- Every name the spread graph mentions. -/
def fragmentSpreadUniverse (frags : List FragmentDef) : Finset String :=
  (frags.flatMap (fun f => f.name :: f.spreadRefs)).toFinset

/-- Modelled from the spec: Fragment::is_recursive (fragments.rs is not among
the staged repository files). Spec 3 and 4.3: a fragment is recursive iff its
own expansion reaches a spread of itself, directly or via a chain of other
fragments — i.e. iff the fragment is reachable from its own direct spreads in
the spread graph. -/
def isRecursiveFragment (frags : List FragmentDef) (f : String) : Bool :=
  decide (f ∈ closureFrom (fragmentSpreadSucc frags) (fragmentSpreadSucc frags f)
    (fragmentSpreadUniverse frags))

/-- The type expression of an emitted field referencing a generated type:
bare, or behind one level of indirection (Box for Rust, pointer for Go). -/
inductive FieldTypeExpr
  | plain (name : String)
  | boxed (name : String)
deriving DecidableEq

/-- The fragment spread arm of response_fields_for_selection (shared.rs lines
224-232): when the fragment is recursive the emitted field type is the
fragment type behind one level of indirection, otherwise the bare type. -/
def fragment_spread_field_type (recursive : Bool) (fragmentName : String) : FieldTypeExpr :=
  if recursive then FieldTypeExpr.boxed fragmentName else FieldTypeExpr.plain fragmentName

/-- Levels of indirection a field type expression carries. -/
def indirectionLevels : FieldTypeExpr → Nat
  | FieldTypeExpr.plain _ => 0
  | FieldTypeExpr.boxed _ => 1

/-! ## Field rendering and deprecation (shared.rs, codegen.rs) -/

/-- The deprecation status a schema field carries (deprecation.rs): current,
or deprecated with an optional reason. -/
inductive DeprecationStatus
  | current
  | deprecated (reason : Option String)
deriving DecidableEq

/-- The configured DeprecationStrategy (deprecation.rs). -/
inductive DeprecationStrategy
  | allow
  | deny
  | warn
deriving DecidableEq

/-- The deprecation marker attached to an emitted field: none, the bare
deprecated attribute, or a deprecated attribute with a note. -/
inductive DeprecationMarker
  | noMarker
  | deprecatedBare
  | deprecatedNote (note : String)
deriving DecidableEq

/-- An emitted object field, reduced to the data the claims speak about: its
rendered name, its deprecation marker and its type expression. -/
structure RenderedField where
  name : String
  marker : DeprecationMarker
  fieldType : FieldTypeExpr
deriving DecidableEq

/-- render_object_field (shared.rs lines 83-126), its match arms in source
order: a deprecated field under Deny renders to nothing; under Allow, or when
current, the field renders with no marker; under Warn a provided reason
becomes a note and a missing reason the bare deprecated attribute. -/
def render_object_field (fieldName : String) (fieldType : FieldTypeExpr)
    (status : DeprecationStatus) (strategy : DeprecationStrategy) : Option RenderedField :=
  match status, strategy with
  | DeprecationStatus.deprecated _, DeprecationStrategy.deny => none
  | _, DeprecationStrategy.allow =>
      some ⟨fieldName, DeprecationMarker.noMarker, fieldType⟩
  | DeprecationStatus.current, _ =>
      some ⟨fieldName, DeprecationMarker.noMarker, fieldType⟩
  | DeprecationStatus.deprecated (some reason), DeprecationStrategy.warn =>
      some ⟨fieldName, DeprecationMarker.deprecatedNote reason, fieldType⟩
  | DeprecationStatus.deprecated none, DeprecationStrategy.warn =>
      some ⟨fieldName, DeprecationMarker.deprecatedBare, fieldType⟩

/-- The deprecation handling of render_selection (codegen.rs lines 275-289):
none means the field is dropped (the source's continue under Deny); otherwise
the marker attached to the single emitted field, where Warn uses the
schema-provided message or the generic "This field is deprecated.". -/
def renderSelectionDeprecation (isDeprecated : Bool) (message : Option String)
    (strategy : DeprecationStrategy) : Option DeprecationMarker :=
  match isDeprecated, strategy with
  | false, _ => some DeprecationMarker.noMarker
  | true, DeprecationStrategy.allow => some DeprecationMarker.noMarker
  | true, DeprecationStrategy.warn =>
      some (DeprecationMarker.deprecatedNote (message.getD "This field is deprecated."))
  | true, DeprecationStrategy.deny => none

/-! ## Selection resolution on object fields (shared.rs) -/

/-- A field of an object or interface type as the schema declares it. -/
structure GqlObjectField where
  name : String
  tyName : String
  deprecation : DeprecationStatus
deriving DecidableEq

/-- An item of a selection set as response_fields_for_selection consumes it. -/
inductive SelItem
  | field (name : String) (aliasName : Option String)
  | fragmentSpread (fragmentName : String)
  | inlineFragment
deriving DecidableEq

/-- The errors response_fields_for_selection produces (shared.rs lines
158-254), each with the context its message carries. -/
inductive ResolveError
  | unknownField (name : String) (typeName : String) (available : List String)
  | unknownFragment (name : String)
  | inlineFragmentUnimplemented
deriving DecidableEq

/-- One iteration of response_fields_for_selection (shared.rs lines 158-254).
A field is looked up by wire name among the scope type's schema fields; when
absent, the error message enumerates every available field name. A fragment
spread is looked up in the query context's fragment map, modelled as a list
pairing each known fragment name with its is_recursive flag. An inline
fragment on an object field is unimplemented in the source. -/
def resolveSelectionItem (typeName : String) (schemaFields : List GqlObjectField)
    (knownFragments : List (String × Bool)) (strategy : DeprecationStrategy) :
    SelItem → Except ResolveError (Option RenderedField)
  | SelItem.field n al =>
      match schemaFields.find? (fun f => decide (f.name = n)) with
      | none => Except.error (ResolveError.unknownField n typeName
          (schemaFields.map (fun f => f.name)))
      | some f => Except.ok (render_object_field (al.getD n)
          (FieldTypeExpr.plain f.tyName) f.deprecation strategy)
  | SelItem.fragmentSpread fn =>
      match knownFragments.find? (fun p => decide (p.1 = fn)) with
      | none => Except.error (ResolveError.unknownFragment fn)
      | some p => Except.ok (some ⟨fn, DeprecationMarker.noMarker,
          fragment_spread_field_type p.2 fn⟩)
  | SelItem.inlineFragment => Except.error ResolveError.inlineFragmentUnimplemented

/-- response_fields_for_selection (shared.rs lines 158-254) over the whole
selection: the first failing item's error aborts the collection; an item that
renders to nothing (a denied deprecated field) emits no field. -/
def response_fields_for_selection (typeName : String) (schemaFields : List GqlObjectField)
    (knownFragments : List (String × Bool)) (strategy : DeprecationStrategy) :
    List SelItem → Except ResolveError (List RenderedField)
  | [] => Except.ok []
  | item :: rest =>
      match resolveSelectionItem typeName schemaFields knownFragments strategy item with
      | Except.error e => Except.error e
      | Except.ok none =>
          response_fields_for_selection typeName schemaFields knownFragments strategy rest
      | Except.ok (some f) =>
          match response_fields_for_selection typeName schemaFields knownFragments
              strategy rest with
          | Except.error e => Except.error e
          | Except.ok fs => Except.ok (f :: fs)

/-! ## Variable default-value compilation (variables.rs, codegen.rs) -/

/-- A literal default value from the parsed query document
(graphql_parser::query::Value). The float's numeric payload passes through
generation untouched, so it is carried opaquely. -/
inductive GqlValue
  | boolean (b : Bool)
  | stringVal (s : String)
  | varRef (name : String)
  | nullVal
  | floatVal (raw : String)
  | intVal (i : Int)
  | enumVal (name : String)
  | listVal (elems : List GqlValue)
  | objectVal (fields : List (String × GqlValue))

/-- A declared field of an Input type as the literal compiler consults it:
name, base type name, and whether its type reference is optional. -/
structure InputFieldDef where
  name : String
  tyInnerName : String
  tyIsOptional : Bool
deriving DecidableEq

/-- An Input type of the schema as the literal compiler consults it. -/
structure CompilerInputDef where
  name : String
  fields : List InputFieldDef
deriving DecidableEq

/-- The compiled literal the default-value compiler emits, reduced to its
semantic content. todoBody stands for the todo!() placeholder body emitted by
the token-stream code generator in codegen.rs. -/
inductive RustLiteral
  | boolean (b : Bool)
  | stringLit (s : String)
  | floatLit (raw : String)
  | intLit (i : Int)
  | enumRef (name : String)
  | vecLit (elems : List RustLiteral)
  | structLit (ctor : String) (fields : List (String × RustLiteral))
  | noneLit
  | someLit (inner : RustLiteral)
  | todoBody

/-- The final wrap of graphql_parser_value_to_literal (variables.rs lines
116-123): a value for a nullable slot is wrapped in Some. -/
def wrapOptional (isOptional : Bool) (lit : RustLiteral) : RustLiteral :=
  if isOptional then RustLiteral.someLit lit else lit

/-- graphql_parser_value_to_literal together with render_object_literal
(variables.rs lines 71-172). Booleans, strings, floats, ints and enum values
pass through as literals; a variable reference or an explicit null panics
(none here); a list compiles its elements with is_optional false; an object
literal is compiled field by field against the named Input type's declared
fields — a field present in the literal compiles recursively with its own
optionality, an absent one compiles to None — and an unknown input type
panics. List.attach only carries the membership proof termination needs. -/
def graphql_parser_value_to_literal (inputs : List CompilerInputDef) :
    GqlValue → String → Bool → Option RustLiteral
  | GqlValue.boolean b, _, opt => some (wrapOptional opt (RustLiteral.boolean b))
  | GqlValue.stringVal s, _, opt => some (wrapOptional opt (RustLiteral.stringLit s))
  | GqlValue.varRef _, _, _ => none
  | GqlValue.nullVal, _, _ => none
  | GqlValue.floatVal raw, _, opt => some (wrapOptional opt (RustLiteral.floatLit raw))
  | GqlValue.intVal i, _, opt => some (wrapOptional opt (RustLiteral.intLit i))
  | GqlValue.enumVal n, _, opt => some (wrapOptional opt (RustLiteral.enumRef n))
  | GqlValue.listVal elems, tyName, opt =>
      match elems.attach.mapM
          (fun v => graphql_parser_value_to_literal inputs v.1 tyName false) with
      | none => none
      | some lits => some (wrapOptional opt (RustLiteral.vecLit lits))
  | GqlValue.objectVal provided, tyName, opt =>
      match inputs.find? (fun d => decide (d.name = tyName)) with
      | none => none
      | some d =>
          match d.fields.mapM (fun fld =>
            match provided.attach.find? (fun pv => decide (pv.1.1 = fld.name)) with
            | none => some (fld.name, RustLiteral.noneLit)
            | some pv =>
                (graphql_parser_value_to_literal inputs pv.1.2 fld.tyInnerName
                  fld.tyIsOptional).map (fun lit => (fld.name, lit))) with
          | none => none
          | some fs => some (wrapOptional opt (RustLiteral.structLit tyName fs))
termination_by v _ _ => sizeOf v
decreasing_by
  · have h := List.sizeOf_lt_of_mem v.2
    simp only [GqlValue.listVal.sizeOf_spec]
    omega
  · have h := List.sizeOf_lt_of_mem pv.2
    have h2 : sizeOf pv.1.2 < sizeOf pv.1 := by
      obtain ⟨a, b⟩ := pv.1
      simp only [Prod.mk.sizeOf_spec]
      omega
    simp only [GqlValue.objectVal.sizeOf_spec]
    omega

/-- Modelled from the spec: FieldType::is_optional (field_type.rs is not
among the staged repository files). Spec 3: a TypeReference stores its
qualifier chain outermost-first; the reference is optional iff its outermost
qualifier is not Required. -/
def typeRefIsOptional (qualifiers : List GraphqlTypeQualifier) : Bool :=
  match qualifiers with
  | GraphqlTypeQualifier.required :: _ => false
  | _ => true

/-- A variable of the operation: name, base type name, declared qualifier
chain, and the optional default-value literal. -/
structure GqlVariable where
  name : String
  tyInnerName : String
  tyQualifiers : List GraphqlTypeQualifier
  defaultValue : Option GqlValue

/-- One generated default constructor: its method name and its body. -/
structure DefaultConstructor where
  fnName : String
  body : RustLiteral

/-- Variable::generate_default_value_constructor (variables.rs lines 13-57):
no constructor without a default value (some none); with one, a single method
default_<name> whose body is the compiled literal, wrapped per the variable
type's optionality; a panic escaping the literal compiler is the outer none. -/
def generate_default_value_constructor (inputs : List CompilerInputDef)
    (v : GqlVariable) : Option (Option DefaultConstructor) :=
  match v.defaultValue with
  | none => some none
  | some dv =>
      match graphql_parser_value_to_literal inputs dv v.tyInnerName
          (typeRefIsOptional v.tyQualifiers) with
      | none => none
      | some lit => some (some ⟨"default_" ++ v.name, lit⟩)

/-- generate_variables_struct of the token-stream code generator (codegen.rs
lines 80-119): it emits, for every variable of the operation — whether or not
the variable declares a default value — a method named default_<name> whose
body is the todo!() placeholder. -/
def codegenVariableDefaultMethods (vars : List GqlVariable) : List DefaultConstructor :=
  vars.map (fun v => ⟨"default_" ++ v.name, RustLiteral.todoBody⟩)

/-! ## Keyword escaping (shared.rs, keyword_replace) -/

/-- The RUST_KEYWORDS table of shared.rs (lines 14-74), in its exact source
order: note the multi-word entries and the duplicated single-word entries,
which leave the table not sorted. -/
def RUST_KEYWORDS : List String := [
  "abstract", "alignof", "as", "async", "await", "become", "box", "break",
  "const", "continue", "crate", "do", "else", "enum", "extern crate",
  "extern", "false", "final", "fn", "for", "for", "if let", "if", "if",
  "impl", "impl", "in", "let", "loop", "macro", "match", "mod", "move",
  "mut", "offsetof", "override", "priv", "proc", "pub", "pure", "ref",
  "return", "self", "sizeof", "static", "struct", "super", "trait", "true",
  "type", "typeof", "unsafe", "unsized", "use", "use", "virtual", "where",
  "while", "yield"]

/-- Rust's lexicographic Ord on str, byte by byte; on the Unicode scalar
values Lean chars carry, byte-wise UTF-8 order and scalar order agree. -/
def charListLtB : List Char → List Char → Bool
  | [], [] => false
  | [], _ :: _ => true
  | _ :: _, [] => false
  | a :: as, b :: bs =>
      if a.toNat < b.toNat then true
      else if b.toNat < a.toNat then false
      else charListLtB as bs

/-- The needle compares less than a table entry. -/
def stringLtB (a b : String) : Bool := charListLtB a.data b.data

/-- The loop of Rust's slice::binary_search_by in the branchless variant the
toolchains contemporary with this crate shipped (and current ones ship
again): no early return on an equal probe; while size > 1, probe
base + size / 2 and keep base only when the probed element is greater than
the needle. The fuel argument only bounds the loop; the caller passes the
slice length, which the strictly shrinking size never exhausts. -/
def binarySearchLoop (l : List String) (needle : String) : Nat → Nat → Nat → Nat
  | 0, base, _ => base
  | fuel + 1, base, size =>
      if size ≤ 1 then base
      else if stringLtB needle (l.getD (base + size / 2) "") then
        binarySearchLoop l needle fuel base (size - size / 2)
      else
        binarySearchLoop l needle fuel (base + size / 2) (size - size / 2)

/-- slice::binary_search: empty slice finds nothing; otherwise the loop
narrows to one index (half of the probed size is the source's half variable)
and a final probe decides. -/
def rustBinarySearch (l : List String) (needle : String) : Option Nat :=
  if l.length = 0 then none
  else if l.getD (binarySearchLoop l needle l.length 0 l.length) "" = needle then
    some (binarySearchLoop l needle l.length 0 l.length)
  else none

/-- keyword_replace (shared.rs lines 76-81): binary-search the keyword table;
on a hit, return the found entry with an underscore appended, otherwise the
needle unchanged. -/
def keyword_replace (needle : String) : String :=
  match rustBinarySearch RUST_KEYWORDS needle with
  | some idx => (RUST_KEYWORDS.getD idx "") ++ "_"
  | none => needle

/-! ## Theorems -/

/-- C1 (counterexample). The claim states decorate(T, [Required, List]) =
Optional<List<T>>; with the chain written as the code stores it
(outermost-first, so [Required, List] is the GraphQL type [T]!), the code
produces List<Optional<T>> instead. -/
theorem c1_decorate_counterexample :
    decorate_type "T" [GraphqlTypeQualifier.required, GraphqlTypeQualifier.list] =
      some (RustType.vec (RustType.option (RustType.named "T"))) ∧
    decorate_type "T" [GraphqlTypeQualifier.required, GraphqlTypeQualifier.list] ≠
      some (RustType.option (RustType.vec (RustType.named "T"))) := by
  exact ⟨rfl, by decide⟩

/-- Processing any qualifier list that contains two adjacent Required
qualifiers fails, whatever the state reached before them. -/
theorem decorateTypeAux_double_required (l1 l2 : List GraphqlTypeQualifier) :
    ∀ (nn : Bool) (shape : RustType),
      decorateTypeAux nn shape
        (l1 ++ GraphqlTypeQualifier.required :: GraphqlTypeQualifier.required :: l2) =
        none := by
  induction l1 with
  | nil =>
      intro nn shape
      cases nn <;> simp [decorateTypeAux]
  | cons q t ih =>
      intro nn shape
      cases nn <;> cases q <;> simp [decorateTypeAux, ih]

/-- C1 (amended). decorate is deterministic and, with qualifier chains written
outermost-first as the code stores them: decorate(T, []) = Optional<T>;
decorate(T, [Required]) = T; decorate(T, [Required, List]) (the type [T]!) =
List<Optional<T>>; decorate(T, [List, Required]) (the type [T!]) =
Optional<List<T>>; a chain containing two consecutive Required qualifiers
always fails. -/
theorem c1_decorate_amended (T : String) :
    decorate_type T [] = some (RustType.option (RustType.named T)) ∧
    decorate_type T [GraphqlTypeQualifier.required] = some (RustType.named T) ∧
    decorate_type T [GraphqlTypeQualifier.required, GraphqlTypeQualifier.list] =
      some (RustType.vec (RustType.option (RustType.named T))) ∧
    decorate_type T [GraphqlTypeQualifier.list, GraphqlTypeQualifier.required] =
      some (RustType.option (RustType.vec (RustType.named T))) ∧
    (∀ qs : List GraphqlTypeQualifier, decorate_type T qs = decorate_type T qs) ∧
    (∀ pre post : List GraphqlTypeQualifier,
      decorate_type T
        (pre ++ GraphqlTypeQualifier.required :: GraphqlTypeQualifier.required :: post) =
        none) := by
  refine ⟨rfl, rfl, rfl, rfl, fun _ => rfl, fun pre post => ?_⟩
  unfold decorate_type
  have h : (pre ++ GraphqlTypeQualifier.required ::
      GraphqlTypeQualifier.required :: post).reverse =
      post.reverse ++ GraphqlTypeQualifier.required ::
        GraphqlTypeQualifier.required :: pre.reverse := by
    simp
  rw [h]
  exact decorateTypeAux_double_required post.reverse pre.reverse false (RustType.named T)

/-- C2. Open-world enum round-trip: a wire string among the declared values
deserializes to its known variant, any other string to the catch-all carrying
it; serialization maps a known variant to its schema string and the catch-all
to its carried string, so serializing after deserializing reproduces every
input string. -/
theorem c2_enum_open_world (variants : List String) (s : String) :
    (s ∈ variants → deserializeEnum variants s = EnumValue.known s) ∧
    (s ∉ variants → deserializeEnum variants s = EnumValue.other s) ∧
    serializeEnum (deserializeEnum variants s) = s ∧
    serializeEnum (EnumValue.other s) = s := by
  induction variants with
  | nil => simp [deserializeEnum, serializeEnum]
  | cons v rest ih =>
      by_cases h : v = s
      · subst h
        simp [deserializeEnum, serializeEnum]
      · have hm : s ∈ v :: rest ↔ s ∈ rest := by
          simp only [List.mem_cons]
          exact or_iff_right (fun hs => h hs.symm)
        refine ⟨fun hs => ?_, fun hs => ?_, ?_, rfl⟩
        · rw [deserializeEnum, if_neg h]
          exact ih.1 (hm.mp hs)
        · rw [deserializeEnum, if_neg h]
          exact ih.2.1 (fun hr => hs (hm.mpr hr))
        · rw [deserializeEnum, if_neg h]
          exact ih.2.2.1

/-- C2 witness: a concrete enum with values A and B; the unknown wire string
C round-trips through the catch-all, and A through its known variant. -/
theorem c2_enum_open_world_witness :
    deserializeEnum ["A", "B"] "C" = EnumValue.other "C" ∧
    serializeEnum (deserializeEnum ["A", "B"] "C") = "C" ∧
    deserializeEnum ["A", "B"] "A" = EnumValue.known "A" :=
  ⟨(c2_enum_open_world ["A", "B"] "C").2.1 (by decide),
   (c2_enum_open_world ["A", "B"] "C").2.2.1,
   (c2_enum_open_world ["A", "B"] "A").1 (by decide)⟩

/-- The loop of union_variants succeeds on a list of members that all resolve
to composite types, producing one wrapped variant and one child definition
per member, in order. -/
theorem unionVariantsLoop_ok (schema : UnionContextSchema) (keys : List String)
    (h : ∀ m ∈ keys, knownCompositeType schema m = true) :
    unionVariantsLoop schema keys = Except.ok (keys.map UnionVariant.wrapped, keys) := by
  induction keys with
  | nil => rfl
  | cons m rest ih =>
      have hm : knownCompositeType schema m = true := h m (by simp)
      have hr := ih (fun x hx => h x (by simp [hx]))
      simp [unionVariantsLoop, hm, hr]

/-- If some grouped member resolves to no composite type of the schema, the
loop of union_variants fails with UnknownType for such a member. -/
theorem unionVariantsLoop_error_of_bad (schema : UnionContextSchema) (keys : List String)
    (h : ∃ m ∈ keys, knownCompositeType schema m = false) :
    ∃ t, unionVariantsLoop schema keys = Except.error (UnionError.unknownType t) ∧
      knownCompositeType schema t = false := by
  induction keys with
  | nil => simp at h
  | cons m rest ih =>
      by_cases hm : knownCompositeType schema m = true
      · obtain ⟨x, hx, hbad⟩ := h
        have hxr : x ∈ rest := by
          rcases List.mem_cons.mp hx with h1 | h2
          · rw [h1, hm] at hbad; cases hbad
          · exact h2
        obtain ⟨t, ht, htb⟩ := ih ⟨x, hxr, hbad⟩
        exact ⟨t, by simp [unionVariantsLoop, hm, ht], htb⟩
      · have hm' : knownCompositeType schema m = false := by
          cases hk : knownCompositeType schema m
          · rfl
          · exact absurd hk hm
        exact ⟨m, by simp [unionVariantsLoop, hm'], hm'⟩

/-- The only error the loop of union_variants produces is UnknownType. -/
theorem unionVariantsLoop_error_shape (schema : UnionContextSchema) :
    ∀ (keys : List String) (e : UnionError),
      unionVariantsLoop schema keys = Except.error e →
      ∃ t, e = UnionError.unknownType t := by
  intro keys
  induction keys with
  | nil => intro e h; simp [unionVariantsLoop] at h
  | cons m rest ih =>
      intro e h
      rw [unionVariantsLoop] at h
      by_cases hm : knownCompositeType schema m = true
      · rw [if_pos hm] at h
        cases hrest : unionVariantsLoop schema rest with
        | ok p =>
            obtain ⟨vs, defs⟩ := p
            rw [hrest] at h
            exact absurd h (by simp)
        | error e2 =>
            rw [hrest] at h
            simp only [Except.error.injEq] at h
            exact h ▸ ih e2 hrest
      · rw [if_neg hm] at h
        simp only [Except.error.injEq] at h
        exact ⟨m, h.symm⟩

/-- The only error union_variants produces is UnknownType. -/
theorem union_variants_error_shape (schema : UnionContextSchema)
    (selection : List UnionSelectionItem) (e : UnionError)
    (h : union_variants schema selection = Except.error e) :
    ∃ t, e = UnionError.unknownType t := by
  rw [union_variants] at h
  cases hloop : unionVariantsLoop schema (selectedVariantsOnUnion selection) with
  | ok p =>
      obtain ⟨vs, defs⟩ := p
      rw [hloop] at h
      exact absurd h (by simp)
  | error e2 =>
      rw [hloop] at h
      simp only [Except.error.injEq] at h
      exact h ▸ unionVariantsLoop_error_shape schema _ e2 hloop

/-- C3 (amended). With the discriminator present and the declared member set
M duplicate-free: when every explicitly selected member is in M and names a
composite type of the schema, the generated enum has one struct-wrapping
variant per selected member and one bare placeholder per unselected declared
member, so the variant count equals the size of M; a selected member that
names no object, interface or union of the whole schema fails with
UnknownType (membership of the target in M itself is not checked). -/
theorem c3_union_exhaustive_amended (schema : UnionContextSchema)
    (declared : List String) (selection : List UnionSelectionItem) (pfx : String)
    (hnodup : declared.Nodup)
    (htype : extractTypename selection = true) :
    ((∀ m ∈ selectedVariantsOnUnion selection, m ∈ declared) →
      (∀ m ∈ selectedVariantsOnUnion selection, knownCompositeType schema m = true) →
      ∃ vs, response_for_selection schema declared selection pfx = Except.ok vs ∧
        vs = (selectedVariantsOnUnion selection).map UnionVariant.wrapped ++
          (declared.filter
            (fun v => decide (v ∉ selectedVariantsOnUnion selection))).map
              UnionVariant.placeholder ∧
        vs.length = declared.length) ∧
    ((∃ m ∈ selectedVariantsOnUnion selection, knownCompositeType schema m = false) →
      ∃ t, response_for_selection schema declared selection pfx =
        Except.error (UnionError.unknownType t) ∧ knownCompositeType schema t = false) := by
  have hne : ¬ (extractTypename selection = false) := by simp [htype]
  constructor
  · intro hsub hknown
    have hloop := unionVariantsLoop_ok schema (selectedVariantsOnUnion selection) hknown
    have hfilter : declared.filter
        (fun v => decide
          (v ∉ selectedVariantsOnUnion selection ++ selectedVariantsOnUnion selection)) =
        declared.filter (fun v => decide (v ∉ selectedVariantsOnUnion selection)) := by
      apply List.filter_congr
      intro v _
      simp [List.mem_append]
    refine ⟨_, ?_, rfl, ?_⟩
    · simp only [response_for_selection, union_variants, if_neg hne, hloop]
      rw [hfilter]
    · have hkeysnodup : (selectedVariantsOnUnion selection).Nodup := List.nodup_dedup _
      have hperm : List.Perm
          (declared.filter (fun v => decide (v ∈ selectedVariantsOnUnion selection)))
          (selectedVariantsOnUnion selection) := by
        apply List.Subperm.antisymm
        · apply List.Nodup.subperm (hnodup.filter _)
          intro v hv
          exact of_decide_eq_true (List.mem_filter.mp hv).2
        · apply List.Nodup.subperm hkeysnodup
          intro v hv
          exact List.mem_filter.mpr ⟨hsub v hv, decide_eq_true hv⟩
      have hsplit := List.filter_append_perm
        (fun v => decide (v ∈ selectedVariantsOnUnion selection)) declared
      have hlen := hsplit.length_eq
      rw [List.length_append, hperm.length_eq] at hlen
      have hnot : declared.filter
          (fun v => !(decide (v ∈ selectedVariantsOnUnion selection))) =
          declared.filter (fun v => decide (v ∉ selectedVariantsOnUnion selection)) := by
        apply List.filter_congr
        intro v _
        simp [decide_not]
      rw [hnot] at hlen
      simp only [List.length_append, List.length_map]
      exact hlen
  · intro hbad
    obtain ⟨t, ht, htb⟩ := unionVariantsLoop_error_of_bad schema _ hbad
    refine ⟨t, ?_, htb⟩
    simp only [response_for_selection, union_variants, if_neg hne, ht]

/-- C3 witness: union with declared members X, Y, Z and a selection with the
discriminator that selects only on X: one wrapped variant for X, placeholders
for Y and Z, three variants in total. -/
theorem c3_union_exhaustive_witness :
    response_for_selection ⟨["X", "Y", "Z"], [], []⟩ ["X", "Y", "Z"]
        [UnionSelectionItem.typenameField, UnionSelectionItem.inlineFragment "X"] "Meow" =
      Except.ok [UnionVariant.wrapped "X", UnionVariant.placeholder "Y",
        UnionVariant.placeholder "Z"] := by
  obtain ⟨vs, hok, hvs, _⟩ :=
    (c3_union_exhaustive_amended ⟨["X", "Y", "Z"], [], []⟩ ["X", "Y", "Z"]
      [UnionSelectionItem.typenameField, UnionSelectionItem.inlineFragment "X"] "Meow"
      (by decide) (by decide)).1 (by decide) (by decide)
  rw [hok, hvs]
  rfl

/-- C3 (counterexample). The claim says a selected member name not among the
union's declared members fails with UnknownType; selecting on Z, which is an
object of the schema but not a declared member of the (single-member) union,
succeeds and emits an extra wrapped variant instead. -/
theorem c3_union_counterexample :
    response_for_selection ⟨["X", "Z"], [], []⟩ ["X"]
        [UnionSelectionItem.typenameField, UnionSelectionItem.inlineFragment "Z"] "Pfx" =
      Except.ok [UnionVariant.wrapped "Z", UnionVariant.placeholder "X"] ∧
    "Z" ∈ selectedVariantsOnUnion
        [UnionSelectionItem.typenameField, UnionSelectionItem.inlineFragment "Z"] ∧
    "Z" ∉ ["X"] := by
  exact ⟨rfl, by decide, by decide⟩

/-- C4. A selection on a union or interface field without the __typename
meta-field always resolves to the MissingTypename error, whatever else the
selection contains; when __typename is present, MissingTypename is never the
result. -/
theorem c4_missing_typename (schema : UnionContextSchema) (declared : List String)
    (selection : List UnionSelectionItem) (pfx : String) :
    (extractTypename selection = false →
      response_for_selection schema declared selection pfx =
        Except.error (UnionError.missingTypename pfx)) ∧
    (extractTypename selection = true →
      ∀ q : String, response_for_selection schema declared selection pfx ≠
        Except.error (UnionError.missingTypename q)) := by
  constructor
  · intro h
    simp [response_for_selection, h]
  · intro h q
    have hne : ¬ (extractTypename selection = false) := by simp [h]
    simp only [response_for_selection, if_neg hne]
    cases hu : union_variants schema selection with
    | ok p =>
        obtain ⟨vs, defs, used⟩ := p
        simp [hu]
    | error e =>
        obtain ⟨t, rfl⟩ := union_variants_error_shape schema selection e hu
        simp [hu]

/-- A set is contained in its saturation step. -/
theorem subset_stepClose (succ : String → Finset String) (s : Finset String) :
    s ⊆ stepClose succ s :=
  Finset.subset_union_left

/-- One more saturation step never loses elements. -/
theorem iterClose_subset_succ (succ : String → Finset String) (roots : Finset String)
    (n : Nat) : iterClose succ roots n ⊆ iterClose succ roots (n + 1) :=
  subset_stepClose succ _

/-- Iterated saturation is monotone in the step count. -/
theorem iterClose_mono (succ : String → Finset String) (roots : Finset String)
    {m n : Nat} (h : m ≤ n) : iterClose succ roots m ⊆ iterClose succ roots n := by
  induction n with
  | zero =>
      have : m = 0 := Nat.le_zero.mp h
      rw [this]
  | succ n ih =>
      cases Nat.eq_or_lt_of_le h with
      | inl heq => rw [heq]
      | inr hlt =>
          exact fun x hx =>
            iterClose_subset_succ succ roots n (ih (Nat.lt_succ_iff.mp hlt) hx)

/-- Saturation stays inside any universe containing the roots and closed under
the successor map. -/
theorem iterClose_subset_bound (succ : String → Finset String) (roots U : Finset String)
    (hr : roots ⊆ U) (hs : ∀ x, succ x ⊆ U) (n : Nat) :
    iterClose succ roots n ⊆ U := by
  induction n with
  | zero => exact hr
  | succ n ih =>
      intro x hx
      rcases Finset.mem_union.mp hx with h1 | h2
      · exact ih h1
      · obtain ⟨a, _, hxa⟩ := Finset.mem_biUnion.mp h2
        exact hs a hxa

/-- Once one saturation step changes nothing, no further step does. -/
theorem iterClose_stabilize (succ : String → Finset String) (roots : Finset String)
    (n : Nat) (h : iterClose succ roots (n + 1) = iterClose succ roots n) :
    ∀ m, iterClose succ roots (n + m) = iterClose succ roots n := by
  intro m
  induction m with
  | zero => rfl
  | succ m ih =>
      have hstep : iterClose succ roots (n + m + 1) =
          stepClose succ (iterClose succ roots (n + m)) := rfl
      have : iterClose succ roots (n + (m + 1)) =
          stepClose succ (iterClose succ roots (n + m)) := by
        rw [← hstep]
        rfl
      rw [this, ih]
      exact h

/-- While no step has reached a fixpoint, every step strictly grows the set. -/
theorem iterClose_card_growth (succ : String → Finset String) (roots : Finset String)
    (n : Nat)
    (h : ∀ k < n, iterClose succ roots (k + 1) ≠ iterClose succ roots k) :
    n ≤ (iterClose succ roots n).card := by
  induction n with
  | zero => exact Nat.zero_le _
  | succ n ih =>
      have hne := h n (Nat.lt_succ_self n)
      have hsub := iterClose_subset_succ succ roots n
      have hlt : (iterClose succ roots n).card < (iterClose succ roots (n + 1)).card :=
        Finset.card_lt_card (Finset.ssubset_iff_subset_ne.mpr ⟨hsub, fun he => hne he.symm⟩)
      have := ih (fun k hk => h k (Nat.lt_succ_of_lt hk))
      omega

/-- Running the saturation as many steps as the bounding universe has
elements reaches a fixpoint, by pigeonhole. -/
theorem iterClose_fixed (succ : String → Finset String) (roots U : Finset String)
    (hr : roots ⊆ U) (hs : ∀ x, succ x ⊆ U) :
    iterClose succ roots (U.card + 1) = iterClose succ roots U.card := by
  by_cases hex : ∃ k < U.card + 1,
      iterClose succ roots (k + 1) = iterClose succ roots k
  · obtain ⟨k, hk, hfix⟩ := hex
    have hk' : k ≤ U.card := Nat.lt_succ_iff.mp hk
    have h1 := iterClose_stabilize succ roots k hfix (U.card + 1 - k)
    have h2 := iterClose_stabilize succ roots k hfix (U.card - k)
    rw [Nat.add_sub_cancel' (Nat.le_succ_of_le hk')] at h1
    rw [Nat.add_sub_cancel' hk'] at h2
    rw [h1, h2]
  · push_neg at hex
    have hgrow := iterClose_card_growth succ roots (U.card + 1) hex
    have hb := iterClose_subset_bound succ roots U hr hs (U.card + 1)
    have := Finset.card_le_card hb
    omega

/-- Soundness of the saturation: everything it gathers is reachable. -/
theorem reaches_of_mem_iterClose (succ : String → Finset String) (roots : Finset String)
    (n : Nat) : ∀ x ∈ iterClose succ roots n, Reaches succ roots x := by
  induction n with
  | zero => exact fun x hx => Reaches.root x hx
  | succ n ih =>
      intro x hx
      rcases Finset.mem_union.mp hx with h1 | h2
      · exact ih x h1
      · obtain ⟨a, ha, hxa⟩ := Finset.mem_biUnion.mp h2
        exact Reaches.step a x (ih a ha) hxa

/-- Completeness against any step-closed set containing the roots. -/
theorem mem_of_reaches_closed (succ : String → Finset String) (roots C : Finset String)
    (hC : stepClose succ C = C) (hroots : roots ⊆ C) :
    ∀ x, Reaches succ roots x → x ∈ C := by
  intro x h
  induction h with
  | root y hy => exact hroots hy
  | step a b _ hb ih =>
      have hmem : b ∈ stepClose succ C :=
        Finset.mem_union_right _ (Finset.mem_biUnion.mpr ⟨a, ih, hb⟩)
      rwa [hC] at hmem

/-- The saturation to a fixpoint computes exactly the reachable names. -/
theorem mem_closureFrom_iff (succ : String → Finset String) (roots U : Finset String)
    (hr : roots ⊆ U) (hs : ∀ x, succ x ⊆ U) (x : String) :
    x ∈ closureFrom succ roots U ↔ Reaches succ roots x := by
  constructor
  · exact fun h => reaches_of_mem_iterClose succ roots U.card x h
  · intro h
    have hfix : stepClose succ (closureFrom succ roots U) = closureFrom succ roots U :=
      iterClose_fixed succ roots U hr hs
    have hroots : roots ⊆ closureFrom succ roots U :=
      iterClose_mono succ roots (Nat.zero_le _)
    exact mem_of_reaches_closed succ roots (closureFrom succ roots U) hfix hroots x h

/-- The roots are inside the schema name universe. -/
theorem roots_subset_schemaNameUniverse (schema : SchemaModel) (roots : Finset String) :
    roots ⊆ schemaNameUniverse schema roots :=
  Finset.Subset.trans Finset.subset_union_left Finset.subset_union_left

/-- Direct schema references stay inside the schema name universe. -/
theorem schemaRefSucc_subset_universe (schema : SchemaModel) (roots : Finset String) :
    ∀ x, schemaRefSucc schema x ⊆ schemaNameUniverse schema roots := by
  intro x y hy
  rcases Finset.mem_union.mp hy with h1 | h2
  · rw [List.mem_toFinset] at h1
    obtain ⟨d, hd, hyd⟩ := List.mem_flatMap.mp h1
    have hdm : d ∈ schema.inputs := (List.mem_filter.mp hd).1
    apply Finset.mem_union_left
    apply Finset.mem_union_right
    rw [List.mem_toFinset]
    exact List.mem_flatMap.mpr ⟨d, hdm, List.mem_cons_of_mem _ hyd⟩
  · rw [List.mem_toFinset] at h2
    obtain ⟨f, hf, hyf⟩ := List.mem_flatMap.mp h2
    have hfm : f ∈ schema.fragments := (List.mem_filter.mp hf).1
    apply Finset.mem_union_right
    rw [List.mem_toFinset]
    exact List.mem_flatMap.mpr ⟨f, hfm, List.mem_cons_of_mem _ hyf⟩

/-- The modelled used-types set holds exactly the reachable names. -/
theorem mem_allUsedTypes_iff (schema : SchemaModel) (roots : Finset String) (x : String) :
    x ∈ allUsedTypes schema roots ↔ Reaches (schemaRefSucc schema) roots x :=
  mem_closureFrom_iff _ _ _ (roots_subset_schemaNameUniverse schema roots)
    (schemaRefSucc_subset_universe schema roots) x

/-- C5. Pruning of output definition lists: the emitted scalar, enum and
fragment definition lists hold one definition exactly for each such schema
definition transitively referenced from the roots (the operation's variable
types plus its selection's references), and the input-object list holds one
item per referenced input object — but each such item is the source's bare
placeholder token carrying no definition at all, exhibited concretely on a
schema with one referenced input object. -/
theorem c5_used_types_pruning (schema : SchemaModel) (roots : Finset String) :
    (∀ s : String,
      EmittedDefinition.scalarDef s ∈
          generate_scalar_definitions schema (allUsedTypes schema roots) ↔
        s ∈ schema.scalars ∧ Reaches (schemaRefSucc schema) roots s) ∧
    (∀ e : String,
      EmittedDefinition.enumDef e ∈
          generate_enum_definition_names schema (allUsedTypes schema roots) ↔
        e ∈ schema.enums ∧ Reaches (schemaRefSucc schema) roots e) ∧
    (∀ f : String,
      EmittedDefinition.fragmentDef f ∈
          generate_fragment_definition_names schema (allUsedTypes schema roots) ↔
        (∃ fd ∈ schema.fragments, fd.name = f) ∧
          Reaches (schemaRefSucc schema) roots f) ∧
    ((generate_input_object_definitions schema (allUsedTypes schema roots)).length =
      (schema.inputs.filter
        (fun d => decide (d.name ∈ allUsedTypes schema roots))).length) ∧
    (∀ item ∈ generate_input_object_definitions schema (allUsedTypes schema roots),
      item = EmittedDefinition.inputPlaceholder) ∧
    (∀ x : String, x ∈ allUsedTypes schema roots ↔
      Reaches (schemaRefSucc schema) roots x) ∧
    generate_input_object_definitions
        ⟨[], [], [⟨"Filters", ["Int"]⟩], []⟩
        (allUsedTypes ⟨[], [], [⟨"Filters", ["Int"]⟩], []⟩ {"Filters"}) =
      [EmittedDefinition.inputPlaceholder] := by
  refine ⟨?_, ?_, ?_, ?_, ?_, mem_allUsedTypes_iff schema roots, by decide⟩
  · intro s
    simp only [generate_scalar_definitions, List.mem_map, List.mem_filter,
      EmittedDefinition.scalarDef.injEq, decide_eq_true_eq]
    constructor
    · rintro ⟨a, ⟨ha, hmem⟩, rfl⟩
      exact ⟨ha, (mem_allUsedTypes_iff schema roots a).mp hmem⟩
    · rintro ⟨ha, hreach⟩
      exact ⟨s, ⟨ha, (mem_allUsedTypes_iff schema roots s).mpr hreach⟩, rfl⟩
  · intro e
    simp only [generate_enum_definition_names, List.mem_map, List.mem_filter,
      EmittedDefinition.enumDef.injEq, decide_eq_true_eq]
    constructor
    · rintro ⟨a, ⟨ha, hmem⟩, rfl⟩
      exact ⟨ha, (mem_allUsedTypes_iff schema roots a).mp hmem⟩
    · rintro ⟨ha, hreach⟩
      exact ⟨e, ⟨ha, (mem_allUsedTypes_iff schema roots e).mpr hreach⟩, rfl⟩
  · intro f
    simp only [generate_fragment_definition_names, List.mem_map, List.mem_filter,
      EmittedDefinition.fragmentDef.injEq, decide_eq_true_eq]
    constructor
    · rintro ⟨fd, ⟨hfd, hmem⟩, rfl⟩
      exact ⟨⟨fd, hfd, rfl⟩, (mem_allUsedTypes_iff schema roots fd.name).mp hmem⟩
    · rintro ⟨⟨fd, hfd, rfl⟩, hreach⟩
      exact ⟨fd, ⟨hfd, (mem_allUsedTypes_iff schema roots fd.name).mpr hreach⟩, rfl⟩
  · simp [generate_input_object_definitions]
  · intro item h
    simp only [generate_input_object_definitions, List.mem_map] at h
    obtain ⟨a, _, heq⟩ := h
    exact heq.symm

/-- Direct fragment spreads stay inside the spread graph's name universe. -/
theorem fragmentSpreadSucc_subset_universe (frags : List FragmentDef) :
    ∀ x, fragmentSpreadSucc frags x ⊆ fragmentSpreadUniverse frags := by
  intro x y hy
  rw [fragmentSpreadSucc, List.mem_toFinset] at hy
  obtain ⟨f, hf, hyf⟩ := List.mem_flatMap.mp hy
  have hfm : f ∈ frags := (List.mem_filter.mp hf).1
  rw [fragmentSpreadUniverse, List.mem_toFinset]
  exact List.mem_flatMap.mpr ⟨f, hfm, List.mem_cons_of_mem _ hyf⟩

/-- The recursion flag is exactly reachability of a fragment from its own
direct spreads in the spread graph. -/
theorem isRecursiveFragment_iff (frags : List FragmentDef) (f : String) :
    isRecursiveFragment frags f = true ↔
      Reaches (fragmentSpreadSucc frags) (fragmentSpreadSucc frags f) f := by
  rw [isRecursiveFragment, decide_eq_true_eq]
  exact mem_closureFrom_iff _ _ _ (fragmentSpreadSucc_subset_universe frags f)
    (fragmentSpreadSucc_subset_universe frags) f

/-- C7. A fragment is marked recursive exactly when its expansion reaches a
spread of itself (so a non-self-referential chain is never marked); a field
referencing a recursive fragment is emitted behind exactly one level of
indirection, a field referencing a non-recursive one with none. The three
closed cases are the specification's: direct self-spread, a cycle through
another fragment, and an acyclic chain. -/
theorem c7_recursive_fragment_boxing (frags : List FragmentDef) (f name : String) :
    (isRecursiveFragment frags f = true ↔
      Reaches (fragmentSpreadSucc frags) (fragmentSpreadSucc frags f) f) ∧
    (isRecursiveFragment frags f = true →
      fragment_spread_field_type (isRecursiveFragment frags f) name =
        FieldTypeExpr.boxed name ∧
      indirectionLevels (fragment_spread_field_type (isRecursiveFragment frags f) name) = 1) ∧
    (isRecursiveFragment frags f = false →
      fragment_spread_field_type (isRecursiveFragment frags f) name =
        FieldTypeExpr.plain name ∧
      indirectionLevels (fragment_spread_field_type (isRecursiveFragment frags f) name) = 0) ∧
    isRecursiveFragment [⟨"F", [], ["F"]⟩] "F" = true ∧
    isRecursiveFragment [⟨"F", [], ["G"]⟩, ⟨"G", [], ["F"]⟩] "F" = true ∧
    isRecursiveFragment [⟨"F", [], ["G"]⟩, ⟨"G", [], ["H"]⟩, ⟨"H", [], []⟩] "F" = false := by
  refine ⟨isRecursiveFragment_iff frags f, ?_, ?_, by decide, by decide, by decide⟩
  · intro h
    rw [h]
    exact ⟨rfl, rfl⟩
  · intro h
    rw [h]
    exact ⟨rfl, rfl⟩

/-- C6. Deprecation strategies: a deprecated field renders to nothing under
Deny; to exactly one field under Warn, its marker a note carrying the
schema-provided reason or the generic marker when none is provided (in
render_selection the generic note text); to exactly one unmarked field under
Allow. A current field renders to exactly one unmarked field under every
strategy, in both renderers. -/
theorem c6_deprecation_strategies (reason : Option String)
    (strategy : DeprecationStrategy) (fieldName : String) (fieldType : FieldTypeExpr) :
    render_object_field fieldName fieldType (DeprecationStatus.deprecated reason)
        DeprecationStrategy.deny = none ∧
    render_object_field fieldName fieldType (DeprecationStatus.deprecated reason)
        DeprecationStrategy.warn =
      some ⟨fieldName,
        (match reason with
          | some r => DeprecationMarker.deprecatedNote r
          | none => DeprecationMarker.deprecatedBare), fieldType⟩ ∧
    render_object_field fieldName fieldType (DeprecationStatus.deprecated reason)
        DeprecationStrategy.allow =
      some ⟨fieldName, DeprecationMarker.noMarker, fieldType⟩ ∧
    render_object_field fieldName fieldType DeprecationStatus.current strategy =
      some ⟨fieldName, DeprecationMarker.noMarker, fieldType⟩ ∧
    renderSelectionDeprecation true reason DeprecationStrategy.deny = none ∧
    renderSelectionDeprecation true reason DeprecationStrategy.warn =
      some (DeprecationMarker.deprecatedNote (reason.getD "This field is deprecated.")) ∧
    renderSelectionDeprecation true reason DeprecationStrategy.allow =
      some DeprecationMarker.noMarker ∧
    renderSelectionDeprecation false reason strategy = some DeprecationMarker.noMarker := by
  cases reason <;> cases strategy <;>
    exact ⟨rfl, rfl, rfl, rfl, rfl, rfl, rfl, rfl⟩

/-- Unfolding equation for one step of response_fields_for_selection. -/
theorem response_fields_cons (ty : String) (fields : List GqlObjectField)
    (frags : List (String × Bool)) (strat : DeprecationStrategy)
    (item : SelItem) (rest : List SelItem) :
    response_fields_for_selection ty fields frags strat (item :: rest) =
      match resolveSelectionItem ty fields frags strat item with
      | Except.error e => Except.error e
      | Except.ok none => response_fields_for_selection ty fields frags strat rest
      | Except.ok (some f) =>
          match response_fields_for_selection ty fields frags strat rest with
          | Except.error e => Except.error e
          | Except.ok fs => Except.ok (f :: fs) := rfl

/-- A successfully resolved item list followed by anything resolves as the
tail does, with the already rendered fields in front. -/
theorem response_fields_append (ty : String) (fields : List GqlObjectField)
    (frags : List (String × Bool)) (strat : DeprecationStrategy) :
    ∀ (pre rest : List SelItem) (r : List RenderedField),
      response_fields_for_selection ty fields frags strat pre = Except.ok r →
      response_fields_for_selection ty fields frags strat (pre ++ rest) =
        (response_fields_for_selection ty fields frags strat rest).map
          (fun fs => r ++ fs) := by
  intro pre
  induction pre with
  | nil =>
      intro rest r h
      have h' : (Except.ok [] : Except ResolveError (List RenderedField)) =
          Except.ok r := h
      injection h' with h''
      subst h''
      rw [List.nil_append]
      cases hres : response_fields_for_selection ty fields frags strat rest <;>
        simp [Except.map]
  | cons item pre ih =>
      intro rest r h
      rw [List.cons_append, response_fields_cons]
      rw [response_fields_cons] at h
      cases hitem : resolveSelectionItem ty fields frags strat item with
      | error e =>
          rw [hitem] at h
          exact absurd h (by simp)
      | ok of =>
          cases of with
          | none =>
              rw [hitem] at h
              exact ih rest r h
          | some f =>
              rw [hitem] at h
              cases hpre : response_fields_for_selection ty fields frags strat pre with
              | error e =>
                  rw [hpre] at h
                  exact absurd h (by simp)
              | ok fs =>
                  rw [hpre] at h
                  have h' : (Except.ok (f :: fs) :
                      Except ResolveError (List RenderedField)) = Except.ok r := h
                  injection h' with h''
                  subst h''
                  rw [ih rest fs hpre]
                  cases hrest : response_fields_for_selection ty fields frags strat rest <;>
                    simp [Except.map]

/-- Resolving a selected field whose wire name is absent from the scope
type's schema fields yields the unknown-field error, whose message carries
every available field name. -/
theorem resolveSelectionItem_field_absent (ty : String) (fields : List GqlObjectField)
    (frags : List (String × Bool)) (strat : DeprecationStrategy)
    (n : String) (al : Option String) (h : n ∉ fields.map (fun f => f.name)) :
    resolveSelectionItem ty fields frags strat (SelItem.field n al) =
      Except.error (ResolveError.unknownField n ty (fields.map (fun f => f.name))) := by
  have hfind : fields.find? (fun f => decide (f.name = n)) = none := by
    rw [List.find?_eq_none]
    intro f hf
    simp only [decide_eq_true_eq]
    intro heq
    exact h (List.mem_map.mpr ⟨f, hf, heq⟩)
  simp [resolveSelectionItem, hfind]

/-- Every unknown-field error the resolver raises names the scope type,
enumerates exactly the scope type's field names, and concerns a field name
absent among them. -/
theorem response_fields_unknownField_inv (ty : String) (fields : List GqlObjectField)
    (frags : List (String × Bool)) (strat : DeprecationStrategy) :
    ∀ (items : List SelItem) (m t : String) (av : List String),
      response_fields_for_selection ty fields frags strat items =
        Except.error (ResolveError.unknownField m t av) →
      t = ty ∧ av = fields.map (fun f => f.name) ∧ m ∉ fields.map (fun f => f.name) := by
  intro items
  induction items with
  | nil =>
      intro m t av h
      exact absurd h (by simp [response_fields_for_selection])
  | cons item rest ih =>
      intro m t av h
      rw [response_fields_cons] at h
      cases hitem : resolveSelectionItem ty fields frags strat item with
      | error e =>
          rw [hitem] at h
          have he : (Except.error e : Except ResolveError (List RenderedField)) =
              Except.error (ResolveError.unknownField m t av) := h
          injection he with he'
          subst he'
          cases item with
          | field n al =>
              simp only [resolveSelectionItem] at hitem
              cases hfind : fields.find? (fun f => decide (f.name = n)) with
              | none =>
                  rw [hfind] at hitem
                  have habs : n ∉ fields.map (fun f => f.name) := by
                    intro hmem
                    obtain ⟨f, hf, hfn⟩ := List.mem_map.mp hmem
                    have hc := List.find?_eq_none.mp hfind f hf
                    simp [hfn] at hc
                  have h2 : (Except.error (ResolveError.unknownField n ty
                      (fields.map (fun f => f.name))) :
                      Except ResolveError (Option RenderedField)) =
                      Except.error (ResolveError.unknownField m t av) := hitem
                  injection h2 with h3
                  injection h3 with hn hty hav
                  exact ⟨hty.symm, hav.symm, hn ▸ habs⟩
              | some f =>
                  rw [hfind] at hitem
                  exact absurd hitem (by simp)
          | fragmentSpread fn =>
              simp only [resolveSelectionItem] at hitem
              cases hfind : frags.find? (fun p => decide (p.1 = fn)) with
              | none =>
                  rw [hfind] at hitem
                  have h2 : (Except.error (ResolveError.unknownFragment fn) :
                      Except ResolveError (Option RenderedField)) =
                      Except.error (ResolveError.unknownField m t av) := hitem
                  injection h2 with h3
                  exact absurd h3 (by simp)
              | some p =>
                  rw [hfind] at hitem
                  exact absurd hitem (by simp)
          | inlineFragment =>
              have h2 : (Except.error ResolveError.inlineFragmentUnimplemented :
                  Except ResolveError (Option RenderedField)) =
                  Except.error (ResolveError.unknownField m t av) := hitem
              injection h2 with h3
              exact absurd h3 (by simp)
      | ok of =>
          cases of with
          | none =>
              rw [hitem] at h
              exact ih m t av h
          | some f =>
              rw [hitem] at h
              cases hrest : response_fields_for_selection ty fields frags strat rest with
              | error e2 =>
                  rw [hrest] at h
                  have he : (Except.error e2 :
                      Except ResolveError (List RenderedField)) =
                      Except.error (ResolveError.unknownField m t av) := h
                  injection he with he'
                  exact ih m t av (he' ▸ hrest)
              | ok fs =>
                  rw [hrest] at h
                  exact absurd h (by simp)

/-- C8. Selecting a field whose name is absent from the scope type's schema
fields makes resolution fail with the unknown-field error enumerating all of
the scope type's field names (whatever items follow, once the preceding items
resolve); conversely, every unknown-field error the resolver ever raises
enumerates exactly the scope type's field names and names a field absent from
them, so it is never raised for a present field name. -/
theorem c8_unknown_field (ty : String) (fields : List GqlObjectField)
    (frags : List (String × Bool)) (strat : DeprecationStrategy) :
    (∀ (pre post : List SelItem) (n : String) (al : Option String)
        (r : List RenderedField),
      response_fields_for_selection ty fields frags strat pre = Except.ok r →
      n ∉ fields.map (fun f => f.name) →
      response_fields_for_selection ty fields frags strat
          (pre ++ SelItem.field n al :: post) =
        Except.error (ResolveError.unknownField n ty (fields.map (fun f => f.name)))) ∧
    (∀ (items : List SelItem) (m t : String) (av : List String),
      response_fields_for_selection ty fields frags strat items =
        Except.error (ResolveError.unknownField m t av) →
      t = ty ∧ av = fields.map (fun f => f.name) ∧
        m ∉ fields.map (fun f => f.name)) := by
  constructor
  · intro pre post n al r hpre hn
    rw [response_fields_append ty fields frags strat pre _ r hpre, response_fields_cons,
      resolveSelectionItem_field_absent ty fields frags strat n al hn]
    rfl
  · exact response_fields_unknownField_inv ty fields frags strat

/-- C8 witness: on scope type User with single schema field firstName,
selecting the absent field age fails with the unknown-field error listing
firstName. -/
theorem c8_unknown_field_witness :
    response_fields_for_selection "User"
        [⟨"firstName", "String", DeprecationStatus.current⟩] []
        DeprecationStrategy.allow [SelItem.field "age" none] =
      Except.error (ResolveError.unknownField "age" "User" ["firstName"]) := by
  have h := (c8_unknown_field "User" [⟨"firstName", "String", DeprecationStatus.current⟩]
      [] DeprecationStrategy.allow).1 [] [] "age" none [] rfl (by decide)
  simpa using h

/-- C9. The default-value compiler of variables.rs produces no constructor
for a variable without a default; the variable limit : Int = 10 yields the one
constructor default_limit whose body is the literal 10 wrapped in Some, the
optional shape decorate gives Int with no qualifiers; the token-stream
generator of codegen.rs instead emits a default_<name> method with a todo
placeholder body for a variable that declares no default at all. -/
theorem c9_default_value_constructor :
    (∀ (inputs : List CompilerInputDef) (v : GqlVariable), v.defaultValue = none →
      generate_default_value_constructor inputs v = some none) ∧
    generate_default_value_constructor []
        ⟨"limit", "Int", [], some (GqlValue.intVal 10)⟩ =
      some (some ⟨"default_limit", RustLiteral.someLit (RustLiteral.intLit 10)⟩) ∧
    decorate_type "Int" [] = some (RustType.option (RustType.named "Int")) ∧
    codegenVariableDefaultMethods [⟨"limit", "Int", [], none⟩] =
      [⟨"default_limit", RustLiteral.todoBody⟩] := by
  refine ⟨?_, ?_, rfl, rfl⟩
  · intro inputs v h
    simp [generate_default_value_constructor, h]
  · simp [generate_default_value_constructor, typeRefIsOptional,
      graphql_parser_value_to_literal, wrapOptional]

/-- C9 witness: a variable with no default yields no constructor. -/
theorem c9_default_value_constructor_witness :
    generate_default_value_constructor [] ⟨"limit", "Int", [], none⟩ = some none :=
  c9_default_value_constructor.1 [] ⟨"limit", "Int", [], none⟩ rfl

/-- The loop of the binary search never leaves the slice, given a positive
probed size fitting in the slice. -/
theorem binarySearchLoop_lt (l : List String) (needle : String) :
    ∀ (fuel base size : Nat), 1 ≤ size → base + size ≤ l.length →
      binarySearchLoop l needle fuel base size < l.length := by
  intro fuel
  induction fuel with
  | zero =>
      intro base size h1 h2
      rw [binarySearchLoop]
      omega
  | succ fuel ih =>
      intro base size h1 h2
      rw [binarySearchLoop]
      by_cases hs : size ≤ 1
      · rw [if_pos hs]
        omega
      · rw [if_neg hs]
        have hhalf1 : 1 ≤ size / 2 :=
          (Nat.le_div_iff_mul_le (by norm_num)).mpr (by omega)
        have hhalflt : size / 2 < size := Nat.div_lt_self (by omega) (by norm_num)
        by_cases hc : stringLtB needle (l.getD (base + size / 2) "") = true
        · rw [if_pos hc]
          exact ih base (size - size / 2) (by omega) (by omega)
        · rw [if_neg hc]
          exact ih (base + size / 2) (size - size / 2) (by omega) (by omega)

/-- A successful binary search returns an index inside the slice whose
element is the needle. -/
theorem rustBinarySearch_some (l : List String) (needle : String) (idx : Nat)
    (h : rustBinarySearch l needle = some idx) :
    idx < l.length ∧ l.getD idx "" = needle := by
  rw [rustBinarySearch] at h
  by_cases hlen : l.length = 0
  · rw [if_pos hlen] at h
    exact absurd h (by simp)
  · rw [if_neg hlen] at h
    by_cases heq : l.getD (binarySearchLoop l needle l.length 0 l.length) "" = needle
    · rw [if_pos heq] at h
      injection h with h'
      subst h'
      exact ⟨binarySearchLoop_lt l needle l.length 0 l.length (by omega) (by omega), heq⟩
    · rw [if_neg heq] at h
      exact absurd h (by simp)

/-- Every run of keyword_replace either returns its input unchanged, or the
input is a table entry and gains one trailing underscore. -/
theorem keywordReplace_spec (s : String) :
    keyword_replace s = s ∨ (s ∈ RUST_KEYWORDS ∧ keyword_replace s = s ++ "_") := by
  cases h : rustBinarySearch RUST_KEYWORDS s with
  | none =>
      left
      simp [keyword_replace, h]
  | some idx =>
      right
      obtain ⟨hlt, heq⟩ := rustBinarySearch_some RUST_KEYWORDS s idx h
      constructor
      · rw [← heq, List.getD_eq_getElem _ _ hlt]
        exact List.getElem_mem hlt
      · have hkr : keyword_replace s = RUST_KEYWORDS.getD idx "" ++ "_" := by
          unfold keyword_replace
          rw [h]
        rw [hkr, heq]

/-- C10 (amended). keyword_replace leaves any string outside the keyword
table unchanged and appends one underscore to every entry of the table except
the two multi-word entries "extern crate" and "if let", which the binary
search fails to locate in the mis-sorted table and which are returned
unchanged; in particular the entries named by the claim all gain their
underscore. -/
theorem c10_keyword_replace_amended :
    (∀ s : String, s ∉ RUST_KEYWORDS → keyword_replace s = s) ∧
    (∀ s : String, keyword_replace s = s ∨
      (s ∈ RUST_KEYWORDS ∧ keyword_replace s = s ++ "_")) ∧
    (∀ s ∈ RUST_KEYWORDS, s ≠ "extern crate" → s ≠ "if let" →
      keyword_replace s = s ++ "_") ∧
    keyword_replace "extern" = "extern_" ∧
    keyword_replace "if" = "if_" ∧
    keyword_replace "for" = "for_" ∧
    keyword_replace "use" = "use_" ∧
    keyword_replace "impl" = "impl_" := by
  refine ⟨?_, keywordReplace_spec, ?_, by rfl, by rfl, by rfl, by rfl, by rfl⟩
  · intro s hs
    rcases keywordReplace_spec s with h | ⟨hmem, _⟩
    · exact h
    · exact absurd hmem hs
  · have hall : RUST_KEYWORDS.all (fun s => decide (s = "extern crate") ||
        decide (s = "if let") || decide (keyword_replace s = s ++ "_")) = true := by rfl
    intro s hmem h1 h2
    have hp := List.all_eq_true.mp hall s hmem
    simp only [h1, h2, decide_False, Bool.false_or, decide_eq_true_eq] at hp
    exact hp

/-- C10 (counterexample). The table entries "extern crate" and "if let" are
returned bare, without the underscore the claim promises for every entry. -/
theorem c10_keyword_replace_counterexample :
    "extern crate" ∈ RUST_KEYWORDS ∧
    keyword_replace "extern crate" = "extern crate" ∧
    "if let" ∈ RUST_KEYWORDS ∧
    keyword_replace "if let" = "if let" :=
  ⟨by decide, by rfl, by decide, by rfl⟩

/-- C10 witness: a concrete single-word entry gains its underscore. -/
theorem c10_keyword_replace_witness :
    keyword_replace "while" = "while_" :=
  c10_keyword_replace_amended.2.2.1 "while" (by decide) (by decide) (by decide)
